import Mathlib

/-!
Shallow embedding of the super-simd crate (src/lib.rs): a bit-sliced
representation of 512 bytes as 8 planes of 512 bits (8 words of 64 bits
each), with the transposing conversions in both directions and the
carry-propagating parallel adder. Machine words are modelled as `Nat`;
64-bit (resp. 8-bit) ranges carry explicit bounds where they matter.
-/

/-- Trailing-zero count of the low `f` bits, mirroring `uN::trailing_zeros`
(`tzAux 8` for u8, `tzAux 64` for u64); returns `f` when those bits are all
zero, as the hardware instruction does on 0. -/
def tzAux : Nat → Nat → Nat
  | 0, _ => 0
  | f + 1, n => if n % 2 = 1 then 0 else tzAux f (n / 2) + 1

/-- Set-bit count of the low `f` bits, mirroring `uN::count_ones`. -/
def onesAux : Nat → Nat → Nat
  | 0, _ => 0
  | f + 1, n => n % 2 + onesAux f (n / 2)

/-- Model of `struct u64x8`: 8 lanes of 64-bit words. -/
def u64x8 : Type := Fin 8 → Nat

/-- Model of `u64x8::ZERO`. -/
def u64x8.ZERO : u64x8 := fun _ => 0

/-- Lane-wise xor, the `simd_xor` platform intrinsic. -/
def simd_xor (a b : u64x8) : u64x8 := fun r => a r ^^^ b r

/-- Lane-wise and, the `simd_and` platform intrinsic. -/
def simd_and (a b : u64x8) : u64x8 := fun r => a r &&& b r

/-- Lane-wise or, the `simd_or` platform intrinsic. -/
def simd_or (a b : u64x8) : u64x8 := fun r => a r ||| b r

/-- Model of `pub struct u8x512`: 8 bit planes (`rows`), plane `v` holding
bit `v` of each of the 512 elements, packed as 8 words of 64 bits. -/
structure u8x512 where
  rows : Fin 8 → u64x8

/-- Well-formedness of a modelled `u8x512`: every stored word fits in 64
bits, as every `u64` does in the source. -/
def u8x512.Wf (x : u8x512) : Prop := ∀ (v r : Fin 8), x.rows v r < 2 ^ 64

/-- Row `n` of `x` read with a Nat index (`x.rows[n]`); the out-of-range
guard never fires in the modelled loops, whose indices stay below 8. -/
def rowN8 (x : u8x512) (n : Nat) : u64x8 :=
  if h : n < 8 then x.rows ⟨n, h⟩ else u64x8.ZERO

/-- Word `r` of a `u64x8` read with a Nat index. -/
def wordN (w : u64x8) (r : Nat) : Nat :=
  if h : r < 8 then w ⟨r, h⟩ else 0

/-- Input byte array read with a Nat index. -/
def colsN (cols : Fin 512 → Nat) : Nat → Nat :=
  fun i => if h : i < 512 then cols ⟨i, h⟩ else 0

/-- Single write `rows[v].$row |= h_mask` on the plane/word store (plane
index first, word index second). -/
def orWord (S : Nat → Nat → Nat) (v r hm : Nat) : Nat → Nat → Nat :=
  fun v' r' => if v' = v ∧ r' = r then S v r ||| hm else S v' r'

/-- Inner loop of the `horizontalize!` macro: run `fuel = col.count_ones()`
passes; each pass takes `v = col.trailing_zeros()`, clears that bit of
`col` and ORs `h_mask` into `rows[v].$row`. -/
def horizBits (fuel col hm r : Nat) (S : Nat → Nat → Nat) : Nat → Nat → Nat :=
  match fuel with
  | 0 => S
  | f + 1 => horizBits f (col ^^^ (1 <<< tzAux 8 col)) hm r (orWord S (tzAux 8 col) r hm)

/-- Body of one column step of `horizontalize!`: column `64*r + k` of the
input is scattered into the words `rows[.].$row` with `h_mask = 2^k` (the
`h_mask` accumulator starts at 1 and is shifted left, wrapping as a u64,
once per column). -/
def horizStepF (cols : Nat → Nat) (r : Nat) (T : Nat → Nat → Nat) (k : Nat) : Nat → Nat → Nat :=
  horizBits (onesAux 8 (cols (64 * r + k))) (cols (64 * r + k)) ((1 <<< k) % 2 ^ 64) r T

/-- One `horizontalize!($row, $range)` invocation: the 64 columns
`64*r + k` in order. -/
def horizSeg (cols : Nat → Nat) (r : Nat) (S : Nat → Nat → Nat) : Nat → Nat → Nat :=
  (List.range 64).foldl (horizStepF cols r) S

/-- Model of `impl From<&[u8; 512]> for u8x512`: the eight `horizontalize!`
invocations in order, starting from zeroed rows. -/
def u8x512.fromArray (cols : Fin 512 → Nat) : u8x512 :=
  ⟨fun v r =>
    horizSeg (colsN cols) 7 (horizSeg (colsN cols) 6 (horizSeg (colsN cols) 5
      (horizSeg (colsN cols) 4 (horizSeg (colsN cols) 3 (horizSeg (colsN cols) 2
        (horizSeg (colsN cols) 1 (horizSeg (colsN cols) 0 (fun _ _ => 0)))))))) v.val r.val⟩

/-- Single write `cols[h + offset] |= v_mask`. -/
def orCol (cols : Nat → Nat) (i vm : Nat) : Nat → Nat :=
  fun j => if j = i then cols i ||| vm else cols j

/-- Inner loop of the `verticalize!` macro: run `fuel = row_cpy.count_ones()`
passes; each pass takes `h = row_cpy.trailing_zeros()`, clears that bit and
ORs `v_mask` into `cols[h + offset]`. -/
def vertBits (fuel w vm offset : Nat) (cols : Nat → Nat) : Nat → Nat :=
  match fuel with
  | 0 => cols
  | f + 1 => vertBits f (w ^^^ (1 <<< tzAux 64 w)) vm offset (orCol cols (tzAux 64 w + offset) vm)

/-- Body of one `verticalize!($row, $offset)` invocation: word `r` of the
plane is scattered into the output at offset `64*r`. -/
def vertStepF (row : u64x8) (vm : Nat) (c : Nat → Nat) (r : Nat) : Nat → Nat :=
  vertBits (onesAux 64 (wordN row r)) (wordN row r) vm (64 * r) c

/-- Eight `verticalize!($row, $offset)` invocations for one plane `row`. -/
def vertRow (row : u64x8) (vm : Nat) (cols : Nat → Nat) : Nat → Nat :=
  (List.range 8).foldl (vertStepF row vm) cols

/-- Model of `impl Into<Box<[u8; 512]>> for &u8x512`: iterate the 8 planes
in order with `v_mask` starting at 1 and shifted left once per plane
(wrapping, as a u8), starting from a zeroed output array. -/
def u8x512.intoArray (x : u8x512) : Fin 512 → Nat :=
  fun i =>
    vertRow (x.rows 7) 128 (vertRow (x.rows 6) 64 (vertRow (x.rows 5) 32
      (vertRow (x.rows 4) 16 (vertRow (x.rows 3) 8 (vertRow (x.rows 2) 4
        (vertRow (x.rows 1) 2 (vertRow (x.rows 0) 1 (fun _ => 0)))))))) i.val

/-- Carry update of one loop iteration of `add`/`add_assign`:
`(a & b) | (a & carry) | (b & carry)` lane-wise. -/
def carryStep (a b c : u64x8) : u64x8 :=
  simd_or (simd_or (simd_and a b) (simd_and a c)) (simd_and b c)

/-- Carry chain of the parallel adder: `carries x y k` is the value of the
`carry` variable after the row-`k` step (`k` at most 6; the carry out of
row 7 is never computed). -/
def carries (x y : u8x512) : Nat → u64x8
  | 0 => simd_and (rowN8 x 0) (rowN8 y 0)
  | k + 1 => carryStep (rowN8 x (k + 1)) (rowN8 y (k + 1)) (carries x y k)

/-- Model of `impl Add for &u8x512`: binary long addition across the
planes; row 0 is `a0 ^ b0` and row `i ≥ 1` is `a_i ^ b_i ^ carry_{i-1}`. -/
def u8x512.add (x y : u8x512) : u8x512 :=
  ⟨fun v =>
    if v = 0 then simd_xor (x.rows 0) (y.rows 0)
    else simd_xor (simd_xor (x.rows v) (y.rows v)) (carries x y (v.val - 1))⟩

/-- Model of the `MaybeUninit` result buffer of `fn add`: `none` is an
uninitialized plane, each `res[i] = MaybeUninit::new(..)` becomes an
update, and the final `transmute` only yields a `u8x512` when every one of
the 8 planes has been written. -/
def u8x512.addUninit (x y : u8x512) : Option u8x512 :=
  let res0 : Fin 8 → Option u64x8 := fun _ => none
  let res1 := Function.update res0 0 (some (simd_xor (x.rows 0) (y.rows 0)))
  let res2 := Function.update res1 1
    (some (simd_xor (simd_xor (x.rows 1) (y.rows 1)) (carries x y 0)))
  let res3 := Function.update res2 2
    (some (simd_xor (simd_xor (x.rows 2) (y.rows 2)) (carries x y 1)))
  let res4 := Function.update res3 3
    (some (simd_xor (simd_xor (x.rows 3) (y.rows 3)) (carries x y 2)))
  let res5 := Function.update res4 4
    (some (simd_xor (simd_xor (x.rows 4) (y.rows 4)) (carries x y 3)))
  let res6 := Function.update res5 5
    (some (simd_xor (simd_xor (x.rows 5) (y.rows 5)) (carries x y 4)))
  let res7 := Function.update res6 6
    (some (simd_xor (simd_xor (x.rows 6) (y.rows 6)) (carries x y 5)))
  let res8 := Function.update res7 7
    (some (simd_xor (simd_xor (x.rows 7) (y.rows 7)) (carries x y 6)))
  if h : ∀ i, (res8 i).isSome then some ⟨fun i => (res8 i).get (h i)⟩ else none

/-- Write `self.rows[i] = w` on a two-cell store (`s 0` is `self`, `s 1`
is `rhs`). -/
def writeRow (s : Fin 2 → u8x512) (i : Fin 8) (w : u64x8) : Fin 2 → u8x512 :=
  fun c => if c = 0 then ⟨fun v => if v = i then w else (s 0).rows v⟩ else s c

/-- Model of `impl AddAssign<&u8x512> for u8x512` at store granularity:
every assignment in the body writes one row of `self` (cell 0) and `rhs`
(cell 1) is only read; reads go through the current store, and in each
iteration `tmp` and the new carry are computed before row `i` is
overwritten, exactly as in the source. -/
def u8x512.addAssignStore (s : Fin 2 → u8x512) : Fin 2 → u8x512 :=
  let c0 := simd_and ((s 0).rows 0) ((s 1).rows 0)
  let s0 := writeRow s 0 (simd_xor ((s 0).rows 0) ((s 1).rows 0))
  let t1 := simd_xor (simd_xor ((s0 0).rows 1) ((s0 1).rows 1)) c0
  let c1 := carryStep ((s0 0).rows 1) ((s0 1).rows 1) c0
  let s1 := writeRow s0 1 t1
  let t2 := simd_xor (simd_xor ((s1 0).rows 2) ((s1 1).rows 2)) c1
  let c2 := carryStep ((s1 0).rows 2) ((s1 1).rows 2) c1
  let s2 := writeRow s1 2 t2
  let t3 := simd_xor (simd_xor ((s2 0).rows 3) ((s2 1).rows 3)) c2
  let c3 := carryStep ((s2 0).rows 3) ((s2 1).rows 3) c2
  let s3 := writeRow s2 3 t3
  let t4 := simd_xor (simd_xor ((s3 0).rows 4) ((s3 1).rows 4)) c3
  let c4 := carryStep ((s3 0).rows 4) ((s3 1).rows 4) c3
  let s4 := writeRow s3 4 t4
  let t5 := simd_xor (simd_xor ((s4 0).rows 5) ((s4 1).rows 5)) c4
  let c5 := carryStep ((s4 0).rows 5) ((s4 1).rows 5) c4
  let s5 := writeRow s4 5 t5
  let t6 := simd_xor (simd_xor ((s5 0).rows 6) ((s5 1).rows 6)) c5
  let c6 := carryStep ((s5 0).rows 6) ((s5 1).rows 6) c5
  let s6 := writeRow s5 6 t6
  let s7 := writeRow s6 7 (simd_xor (simd_xor ((s6 0).rows 7) ((s6 1).rows 7)) c6)
  s7

/-- Value held by the receiver after `a += b` runs. -/
def u8x512.add_assign (a b : u8x512) : u8x512 :=
  u8x512.addAssignStore (fun c => if c = 0 then a else b) 0

/-- Call model of the by-reference `fn add`: the body only reads through
the two borrows (all its writes target the local `res` buffer and the
local `carry`), so the store comes back beside the fresh result. -/
def u8x512.addCall (s : Fin 2 → u8x512) : (Fin 2 → u8x512) × u8x512 :=
  (s, u8x512.add (s 0) (s 1))

/-- Spec bit-matrix accessor `M[i][b]`: bit `i` of plane `b`. -/
def u8x512.planeBit (x : u8x512) (i : Fin 512) (b : Fin 8) : Bool :=
  Nat.testBit (x.rows b ⟨i.val / 64, by have := i.isLt; omega⟩) (i.val % 64)

/-- Column bit `v` of word `r`, element bit `j`: the bit-plane matrix read
with Nat indices (false out of range). -/
def colBits (x : u8x512) (r j : Nat) : Nat → Bool :=
  fun v => Nat.testBit (wordN (rowN8 x v) r) j

/-- Value of the byte whose bits are `g 0 .. g (n-1)`. -/
def bitsVal (g : Nat → Bool) (n : Nat) : Nat :=
  ∑ b ∈ Finset.range n, cond (g b) (2 ^ b) 0

/-- Byte value of element column `j` of word `r` (the logical element
`64*r + j`). -/
def colVal (x : u8x512) (r j : Nat) : Nat := bitsVal (colBits x r j) 8

/-- Bool-level full-adder carry chain. -/
def faCarry (a b : Nat → Bool) : Nat → Bool
  | 0 => a 0 && b 0
  | i + 1 =>
    (a (i + 1) && b (i + 1)) || (a (i + 1) && faCarry a b i) || (b (i + 1) && faCarry a b i)

/-- Bool-level full-adder sum chain. -/
def faSum (a b : Nat → Bool) : Nat → Bool
  | 0 => Bool.xor (a 0) (b 0)
  | i + 1 => Bool.xor (Bool.xor (a (i + 1)) (b (i + 1))) (faCarry a b i)

/-- Unfolded ZERO lane. -/
theorem u64x8_ZERO_apply (r : Fin 8) : u64x8.ZERO r = 0 := rfl

/-- Rows of equal functions give equal structures. -/
theorem u8x512.ext_rows {x y : u8x512} (h : x.rows = y.rows) : x = y := by
  cases x; cases y; simpa using h

/-- Count of set bits as a sum over bit positions. -/
theorem onesAux_eq_sum (f : Nat) : ∀ n, onesAux f n = ∑ j ∈ Finset.range f, cond (Nat.testBit n j) 1 0 := by
  induction f with
  | zero => intro n; simp [onesAux]
  | succ f ih =>
    intro n
    rw [onesAux, ih (n / 2), Finset.sum_range_succ']
    have h0 : cond (Nat.testBit n 0) 1 0 = n % 2 := by
      rcases Nat.mod_two_eq_zero_or_one n with h | h <;> simp [Nat.testBit_zero, h]
    have hs : ∀ j, Nat.testBit n (j + 1) = Nat.testBit (n / 2) j := fun j => Nat.testBit_succ n j
    simp only [hs, h0]
    omega

/-- Zero count exactly characterizes zero below the fuel bound. -/
theorem onesAux_eq_zero_iff (f n : Nat) (hn : n < 2 ^ f) : onesAux f n = 0 ↔ n = 0 := by
  induction f generalizing n with
  | zero => simp [onesAux]; omega
  | succ f ih =>
    rw [onesAux]
    constructor
    · intro h
      have h1 : n % 2 = 0 := by omega
      have h2 : onesAux f (n / 2) = 0 := by omega
      have h3 : n / 2 < 2 ^ f := by
        have : 2 ^ (f + 1) = 2 * 2 ^ f := by ring
        omega
      have := (ih (n / 2) h3).mp h2
      omega
    · intro h; subst h; simp [onesAux]
      have : (0 : Nat) < 2 ^ f := Nat.pos_pow_of_pos f (by norm_num)
      simpa using (ih 0 this).mpr rfl

/-- Trailing-zero count stays below the fuel on a nonzero value. -/
theorem tzAux_lt (f : Nat) : ∀ n, n < 2 ^ f → n ≠ 0 → tzAux f n < f := by
  induction f with
  | zero => intro n h1 h2; omega
  | succ f ih =>
    intro n h1 h2
    rw [tzAux]
    split
    · omega
    · rename_i hodd
      have hn2 : n / 2 ≠ 0 := by omega
      have h3 : n / 2 < 2 ^ f := by
        have : 2 ^ (f + 1) = 2 * 2 ^ f := by ring
        omega
      have := ih (n / 2) h3 hn2
      omega

/-- Bit at the trailing-zero position is set. -/
theorem testBit_tzAux (f : Nat) : ∀ n, n < 2 ^ f → n ≠ 0 → Nat.testBit n (tzAux f n) = true := by
  induction f with
  | zero => intro n h1 h2; omega
  | succ f ih =>
    intro n h1 h2
    rw [tzAux]
    split
    · rename_i hodd
      simp [Nat.testBit_zero, hodd]
    · rename_i hodd
      have hn2 : n / 2 ≠ 0 := by omega
      have h3 : n / 2 < 2 ^ f := by
        have : 2 ^ (f + 1) = 2 * 2 ^ f := by ring
        omega
      rw [Nat.testBit_succ]
      exact ih (n / 2) h3 hn2

/-- Bits below the trailing-zero position are clear. -/
theorem testBit_lt_tzAux (f : Nat) : ∀ n j, j < tzAux f n → Nat.testBit n j = false := by
  induction f with
  | zero => intro n j h; simp [tzAux] at h
  | succ f ih =>
    intro n j h
    rw [tzAux] at h
    split at h
    · omega
    · rename_i hodd
      match j with
      | 0 => simp [Nat.testBit_zero]; omega
      | j + 1 =>
        rw [Nat.testBit_succ]
        exact ih (n / 2) j (by omega)

/-- Bound on a byte value built from `n` bits. -/
theorem bitsVal_lt (g : Nat → Bool) : ∀ n, bitsVal g n < 2 ^ n := by
  intro n
  induction n with
  | zero => simp [bitsVal]
  | succ n ih =>
    rw [bitsVal, Finset.sum_range_succ]
    have h2 : 2 ^ (n + 1) = 2 ^ n + 2 ^ n := by ring
    have : cond (g n) (2 ^ n) 0 ≤ 2 ^ n := by cases g n <;> simp
    rw [bitsVal] at ih
    omega

/-- Bits of a byte value built from `n` bits. -/
theorem testBit_bitsVal (g : Nat → Bool) : ∀ n b, Nat.testBit (bitsVal g n) b = (decide (b < n) && g b) := by
  intro n
  induction n with
  | zero => intro b; simp [bitsVal]
  | succ n ih =>
    intro b
    have hx : bitsVal g n < 2 ^ n := bitsVal_lt g n
    have hy : bitsVal g (n + 1) = bitsVal g n + cond (g n) (2 ^ n) 0 := by
      rw [bitsVal, bitsVal, Finset.sum_range_succ]
    rcases Nat.lt_trichotomy b n with hb | hb | hb
    · have hmod : bitsVal g (n + 1) % 2 ^ n = bitsVal g n := by
        rw [hy]
        cases g n
        · simpa using Nat.mod_eq_of_lt hx
        · simp only [cond_true]
          rw [Nat.add_mod_right]
          exact Nat.mod_eq_of_lt hx
      have h5 := Nat.testBit_mod_two_pow (bitsVal g (n + 1)) n b
      rw [hmod] at h5
      rw [ih b] at h5
      have hbn : (decide (b < n) : Bool) = true := by simp [hb]
      have hbn1 : (decide (b < n + 1) : Bool) = true := by simp; omega
      rw [hbn1]
      rw [hbn] at h5
      simp at h5 ⊢
      exact h5.symm
    · subst hb
      rw [Nat.testBit_to_div_mod]
      have hdiv : bitsVal g (b + 1) / 2 ^ b = cond (g b) 1 0 := by
        rw [hy]
        cases g b
        · simpa using Nat.div_eq_of_lt hx
        · simp only [cond_true]
          rw [Nat.add_div_right _ (Nat.pos_pow_of_pos b (by norm_num))]
          rw [Nat.div_eq_of_lt hx]
      rw [hdiv]
      cases g b <;> simp
    · have : bitsVal g (n + 1) < 2 ^ b := by
        calc bitsVal g (n + 1) < 2 ^ (n + 1) := bitsVal_lt g (n + 1)
        _ ≤ 2 ^ b := Nat.pow_le_pow_right (by norm_num) (by omega)
      rw [Nat.testBit_lt_two_pow this]
      have : (decide (b < n + 1) : Bool) = false := by simp; omega
      rw [this]; simp

/-- Reconstruction: the bit sum of the bits of a byte gives the byte back. -/
theorem bitsVal_testBit_self (x n : Nat) (hx : x < 2 ^ n) : bitsVal (fun b => Nat.testBit x b) n = x := by
  apply Nat.eq_of_testBit_eq
  intro b
  rw [testBit_bitsVal]
  rcases Nat.lt_or_ge b n with hb | hb
  · simp [hb]
  · have h1 : x < 2 ^ b := lt_of_lt_of_le hx (Nat.pow_le_pow_right (by norm_num) hb)
    rw [Nat.testBit_lt_two_pow h1]
    simp

/-- Full-adder invariant: partial sums plus outgoing carry reproduce the
sum of the partial inputs. -/
theorem faSum_invariant (a b : Nat → Bool) : ∀ n,
    bitsVal (faSum a b) (n + 1) + cond (faCarry a b n) (2 ^ (n + 1)) 0
      = bitsVal a (n + 1) + bitsVal b (n + 1) := by
  intro n
  induction n with
  | zero =>
    have h1 : ∀ g : Nat → Bool, bitsVal g 1 = cond (g 0) 1 0 := by
      intro g; rw [bitsVal, Finset.sum_range_one]; rfl
    rw [h1, h1, h1]
    cases ha : a 0 <;> cases hb : b 0 <;> simp [faSum, faCarry, ha, hb]
  | succ n ih =>
    have hstep : ∀ g : Nat → Bool, bitsVal g (n + 2) = bitsVal g (n + 1) + cond (g (n + 1)) (2 ^ (n + 1)) 0 := by
      intro g; rw [bitsVal, bitsVal, Finset.sum_range_succ]
    rw [hstep, hstep, hstep]
    have hsum : faSum a b (n + 1) = Bool.xor (Bool.xor (a (n + 1)) (b (n + 1))) (faCarry a b n) := rfl
    have hcar : faCarry a b (n + 1)
        = ((a (n + 1) && b (n + 1)) || (a (n + 1) && faCarry a b n) || (b (n + 1) && faCarry a b n)) := rfl
    have hp : (2 : Nat) ^ (n + 2) = 2 ^ (n + 1) + 2 ^ (n + 1) := by ring
    rw [hsum, hcar]
    cases ha : a (n + 1) <;> cases hb : b (n + 1) <;> cases hc : faCarry a b n <;>
      simp [ha, hb, hc] at ih ⊢ <;> omega

/-- Ripple-carry correctness over 8 bit planes: the produced byte is the
mod-256 sum. -/
theorem faSum_correct (a b : Nat → Bool) :
    bitsVal (faSum a b) 8 = (bitsVal a 8 + bitsVal b 8) % 256 := by
  have hinv := faSum_invariant a b 7
  have h1 : bitsVal (faSum a b) 8 < 256 := by
    have := bitsVal_lt (faSum a b) 8; norm_num at this; omega
  have h2 : bitsVal a 8 < 256 := by
    have := bitsVal_lt a 8; norm_num at this; omega
  have h3 : bitsVal b 8 < 256 := by
    have := bitsVal_lt b 8; norm_num at this; omega
  norm_num at hinv
  cases hc : faCarry a b 7 <;> rw [hc] at hinv <;> simp at hinv <;> omega

/-- Bitwise effect of `col ^= 1 << col.trailing_zeros()`: clear exactly the
lowest set bit. -/
theorem testBit_clearLowBit (f n : Nat) (h1 : n < 2 ^ f) (h2 : n ≠ 0) (j : Nat) :
    Nat.testBit (n ^^^ (1 <<< tzAux f n)) j = if j = tzAux f n then false else Nat.testBit n j := by
  rw [Nat.one_shiftLeft, Nat.testBit_xor, Nat.testBit_two_pow]
  by_cases hj : j = tzAux f n
  · subst hj
    simp [testBit_tzAux f n h1 h2]
  · have : (decide (tzAux f n = j) : Bool) = false := by
      simp
      exact fun h => hj h.symm
    rw [this, if_neg hj]
    simp

/-- Clearing the lowest set bit removes exactly one from the bit count. -/
theorem onesAux_clearLowBit (f n : Nat) (h1 : n < 2 ^ f) (h2 : n ≠ 0) :
    onesAux f (n ^^^ (1 <<< tzAux f n)) + 1 = onesAux f n := by
  have ht := tzAux_lt f n h1 h2
  rw [onesAux_eq_sum, onesAux_eq_sum]
  have hmem : tzAux f n ∈ Finset.range f := Finset.mem_range.mpr ht
  rw [← Finset.sum_erase_add _ _ hmem, ← Finset.sum_erase_add _ _ hmem]
  have e1 : Nat.testBit (n ^^^ (1 <<< tzAux f n)) (tzAux f n) = false := by
    rw [testBit_clearLowBit f n h1 h2]
    simp
  have e2 : Nat.testBit n (tzAux f n) = true := testBit_tzAux f n h1 h2
  rw [e1, e2]
  have e3 : ∀ j ∈ (Finset.range f).erase (tzAux f n),
      cond (Nat.testBit (n ^^^ (1 <<< tzAux f n)) j) 1 0 = cond (Nat.testBit n j) 1 0 := by
    intro j hj
    have hne : j ≠ tzAux f n := (Finset.mem_erase.mp hj).1
    rw [testBit_clearLowBit f n h1 h2, if_neg hne]
  rw [Finset.sum_congr rfl e3]
  simp

/-- Clearing a bit keeps the value inside the width. -/
theorem clearLowBit_lt (f n : Nat) (h1 : n < 2 ^ f) (h2 : n ≠ 0) :
    n ^^^ (1 <<< tzAux f n) < 2 ^ f := by
  have ht := tzAux_lt f n h1 h2
  rw [Nat.one_shiftLeft]
  exact Nat.xor_lt_two_pow h1 (Nat.pow_lt_pow_right (by norm_num) ht)

/-- Characterization of the horizontalize inner loop: run with fuel
`col.count_ones()`, it ORs `h_mask` into `rows[v].$row` for exactly the set
bits `v` of `col`, leaving every other store entry alone. -/
theorem horizBits_spec (hm r : Nat) : ∀ cnt col S, cnt = onesAux 8 col → col < 2 ^ 8 →
    horizBits cnt col hm r S
      = fun v' r' => if r' = r ∧ Nat.testBit col v' then S v' r' ||| hm else S v' r' := by
  intro cnt
  induction cnt with
  | zero =>
    intro col S hcnt hcol
    have hc0 : col = 0 := (onesAux_eq_zero_iff 8 col hcol).mp hcnt.symm
    subst hc0
    funext v' r'
    simp [horizBits]
  | succ cnt ih =>
    intro col S hcnt hcol
    have hcne : col ≠ 0 := by
      intro h
      subst h
      have h0 : onesAux 8 0 = 0 := rfl
      omega
    rw [horizBits]
    have hones : onesAux 8 (col ^^^ (1 <<< tzAux 8 col)) + 1 = onesAux 8 col :=
      onesAux_clearLowBit 8 col hcol hcne
    have hlt : col ^^^ (1 <<< tzAux 8 col) < 2 ^ 8 := clearLowBit_lt 8 col hcol hcne
    rw [ih (col ^^^ (1 <<< tzAux 8 col)) (orWord S (tzAux 8 col) r hm) (by omega) hlt]
    funext v' r'
    by_cases hv : v' = tzAux 8 col
    · subst hv
      by_cases hr : r' = r
      · subst hr
        have hbit : Nat.testBit (col ^^^ (1 <<< tzAux 8 col)) (tzAux 8 col) = false := by
          rw [testBit_clearLowBit 8 col hcol hcne]
          simp
        have hbit2 : Nat.testBit col (tzAux 8 col) = true := testBit_tzAux 8 col hcol hcne
        simp [hbit, hbit2, orWord]
      · have hbit2 := testBit_clearLowBit 8 col hcol hcne (tzAux 8 col)
        simp at hbit2
        simp [hr, orWord, hbit2]
    · have hbit : Nat.testBit (col ^^^ (1 <<< tzAux 8 col)) v' = Nat.testBit col v' := by
        rw [testBit_clearLowBit 8 col hcol hcne, if_neg hv]
      by_cases hr : r' = r
      · subst hr
        simp [hbit, orWord, hv]
      · simp [hr, orWord]

/-- Partial-segment invariant for `horizontalize!`: after the first `m`
columns of segment `r`, words of other segments are untouched and word
`(v', r)` holds the original bits ORed with bit `j` of plane `v'` of each
processed column `j < m`. -/
theorem horizSeg_firstCols (cols : Nat → Nat) (hc : ∀ i, cols i < 2 ^ 8) (r : Nat) (S : Nat → Nat → Nat) :
    ∀ m, m ≤ 64 →
      (∀ v' r', r' ≠ r → (List.range m).foldl (horizStepF cols r) S v' r' = S v' r') ∧
      (∀ v' j, Nat.testBit ((List.range m).foldl (horizStepF cols r) S v' r) j
          = (Nat.testBit (S v' r) j || (decide (j < m) && Nat.testBit (cols (64 * r + j)) v'))) := by
  intro m
  induction m with
  | zero =>
    intro _
    constructor
    · intro v' r' _
      simp
    · intro v' j
      simp
  | succ m ih =>
    intro hm64
    obtain ⟨ih1, ih2⟩ := ih (by omega)
    have hstep : (List.range (m + 1)).foldl (horizStepF cols r) S
        = horizStepF cols r ((List.range m).foldl (horizStepF cols r) S) m := by
      rw [List.range_succ, List.foldl_append]
      simp
    have hmask : (1 <<< m) % 2 ^ 64 = 2 ^ m := by
      rw [Nat.one_shiftLeft]
      exact Nat.mod_eq_of_lt (Nat.pow_lt_pow_right (by norm_num) (by omega))
    have hrw : horizStepF cols r ((List.range m).foldl (horizStepF cols r) S) m
        = fun v' r' => if r' = r ∧ Nat.testBit (cols (64 * r + m)) v'
            then (List.range m).foldl (horizStepF cols r) S v' r' ||| 2 ^ m
            else (List.range m).foldl (horizStepF cols r) S v' r' := by
      rw [horizStepF, hmask, horizBits_spec _ r _ _ _ rfl (hc _)]
    rw [hstep, hrw]
    constructor
    · intro v' r' hne
      simp only []
      rw [if_neg (fun h => hne h.1)]
      exact ih1 v' r' hne
    · intro v' j
      simp only []
      by_cases hb : Nat.testBit (cols (64 * r + m)) v'
      · rw [if_pos ⟨trivial, hb⟩, Nat.testBit_or, ih2 v' j, Nat.testBit_two_pow]
        by_cases hj : j = m
        · subst hj
          simp [hb]
        · have h1 : (decide (m = j) : Bool) = false := by
            simp only [decide_eq_false_iff_not]
            exact fun h => hj h.symm
          have h2 : (decide (j < m + 1) : Bool) = decide (j < m) := by
            simp only [decide_eq_decide]
            omega
          rw [h1, h2]
          simp
      · have hb' : Nat.testBit (cols (64 * r + m)) v' = false := by
          simpa using hb
        rw [if_neg (fun h => by rw [hb'] at h; exact Bool.false_ne_true h.2)]
        rw [ih2 v' j]
        by_cases hj : j = m
        · subst hj
          simp [hb']
        · have h2 : (decide (j < m + 1) : Bool) = decide (j < m) := by
            simp only [decide_eq_decide]
            omega
          rw [h2]

/-- Segment `r` touches no word of another segment. -/
theorem horizSeg_other (cols : Nat → Nat) (hc : ∀ i, cols i < 2 ^ 8) (r : Nat) (S : Nat → Nat → Nat)
    (v' r' : Nat) (hne : r' ≠ r) : horizSeg cols r S v' r' = S v' r' :=
  (horizSeg_firstCols cols hc r S 64 (le_refl 64)).1 v' r' hne

/-- Word `(v', r)` after its own segment holds exactly the plane bits of
the 64 columns of that segment, ORed onto the previous contents. -/
theorem horizSeg_own (cols : Nat → Nat) (hc : ∀ i, cols i < 2 ^ 8) (r : Nat) (S : Nat → Nat → Nat)
    (v' j : Nat) : Nat.testBit (horizSeg cols r S v' r) j
      = (Nat.testBit (S v' r) j || (decide (j < 64) && Nat.testBit (cols (64 * r + j)) v')) :=
  (horizSeg_firstCols cols hc r S 64 (le_refl 64)).2 v' j

/-- Unfolded encoder rows. -/
theorem fromArray_rows_eq (a : Fin 512 → Nat) (v r : Fin 8) :
    (u8x512.fromArray a).rows v r
      = horizSeg (colsN a) 7 (horizSeg (colsN a) 6 (horizSeg (colsN a) 5
          (horizSeg (colsN a) 4 (horizSeg (colsN a) 3 (horizSeg (colsN a) 2
            (horizSeg (colsN a) 1 (horizSeg (colsN a) 0 (fun _ _ => 0)))))))) v.val r.val := rfl

/-- Byte-array reads stay below 2^8. -/
theorem colsN_lt (a : Fin 512 → Nat) (ha : ∀ i, a i < 256) : ∀ i, colsN a i < 2 ^ 8 := by
  intro i
  simp only [colsN]
  split
  · exact lt_of_lt_of_le (ha _) (by norm_num)
  · norm_num

/-- Encoder bit characterization: bit `j` of word `r` of plane `v` is bit
`v` of input element `64*r + j` (and clear for `j ≥ 64`). -/
theorem fromArray_testBit (a : Fin 512 → Nat) (ha : ∀ i, a i < 256) (v r : Fin 8) (j : Nat) :
    Nat.testBit ((u8x512.fromArray a).rows v r) j
      = (decide (j < 64) && Nat.testBit (colsN a (64 * r.val + j)) v.val) := by
  have hc := colsN_lt a ha
  rw [fromArray_rows_eq]
  fin_cases r
  · rw [horizSeg_other (colsN a) hc 7 _ _ 0 (by norm_num),
      horizSeg_other (colsN a) hc 6 _ _ 0 (by norm_num),
      horizSeg_other (colsN a) hc 5 _ _ 0 (by norm_num),
      horizSeg_other (colsN a) hc 4 _ _ 0 (by norm_num),
      horizSeg_other (colsN a) hc 3 _ _ 0 (by norm_num),
      horizSeg_other (colsN a) hc 2 _ _ 0 (by norm_num),
      horizSeg_other (colsN a) hc 1 _ _ 0 (by norm_num),
      horizSeg_own (colsN a) hc 0 _ _ _]
    simp
  · rw [horizSeg_other (colsN a) hc 7 _ _ 1 (by norm_num),
      horizSeg_other (colsN a) hc 6 _ _ 1 (by norm_num),
      horizSeg_other (colsN a) hc 5 _ _ 1 (by norm_num),
      horizSeg_other (colsN a) hc 4 _ _ 1 (by norm_num),
      horizSeg_other (colsN a) hc 3 _ _ 1 (by norm_num),
      horizSeg_other (colsN a) hc 2 _ _ 1 (by norm_num),
      horizSeg_own (colsN a) hc 1 _ _ _,
      horizSeg_other (colsN a) hc 0 _ _ 1 (by norm_num)]
    simp
  · rw [horizSeg_other (colsN a) hc 7 _ _ 2 (by norm_num),
      horizSeg_other (colsN a) hc 6 _ _ 2 (by norm_num),
      horizSeg_other (colsN a) hc 5 _ _ 2 (by norm_num),
      horizSeg_other (colsN a) hc 4 _ _ 2 (by norm_num),
      horizSeg_other (colsN a) hc 3 _ _ 2 (by norm_num),
      horizSeg_own (colsN a) hc 2 _ _ _,
      horizSeg_other (colsN a) hc 1 _ _ 2 (by norm_num),
      horizSeg_other (colsN a) hc 0 _ _ 2 (by norm_num)]
    simp
  · rw [horizSeg_other (colsN a) hc 7 _ _ 3 (by norm_num),
      horizSeg_other (colsN a) hc 6 _ _ 3 (by norm_num),
      horizSeg_other (colsN a) hc 5 _ _ 3 (by norm_num),
      horizSeg_other (colsN a) hc 4 _ _ 3 (by norm_num),
      horizSeg_own (colsN a) hc 3 _ _ _,
      horizSeg_other (colsN a) hc 2 _ _ 3 (by norm_num),
      horizSeg_other (colsN a) hc 1 _ _ 3 (by norm_num),
      horizSeg_other (colsN a) hc 0 _ _ 3 (by norm_num)]
    simp
  · rw [horizSeg_other (colsN a) hc 7 _ _ 4 (by norm_num),
      horizSeg_other (colsN a) hc 6 _ _ 4 (by norm_num),
      horizSeg_other (colsN a) hc 5 _ _ 4 (by norm_num),
      horizSeg_own (colsN a) hc 4 _ _ _,
      horizSeg_other (colsN a) hc 3 _ _ 4 (by norm_num),
      horizSeg_other (colsN a) hc 2 _ _ 4 (by norm_num),
      horizSeg_other (colsN a) hc 1 _ _ 4 (by norm_num),
      horizSeg_other (colsN a) hc 0 _ _ 4 (by norm_num)]
    simp
  · rw [horizSeg_other (colsN a) hc 7 _ _ 5 (by norm_num),
      horizSeg_other (colsN a) hc 6 _ _ 5 (by norm_num),
      horizSeg_own (colsN a) hc 5 _ _ _,
      horizSeg_other (colsN a) hc 4 _ _ 5 (by norm_num),
      horizSeg_other (colsN a) hc 3 _ _ 5 (by norm_num),
      horizSeg_other (colsN a) hc 2 _ _ 5 (by norm_num),
      horizSeg_other (colsN a) hc 1 _ _ 5 (by norm_num),
      horizSeg_other (colsN a) hc 0 _ _ 5 (by norm_num)]
    simp
  · rw [horizSeg_other (colsN a) hc 7 _ _ 6 (by norm_num),
      horizSeg_own (colsN a) hc 6 _ _ _,
      horizSeg_other (colsN a) hc 5 _ _ 6 (by norm_num),
      horizSeg_other (colsN a) hc 4 _ _ 6 (by norm_num),
      horizSeg_other (colsN a) hc 3 _ _ 6 (by norm_num),
      horizSeg_other (colsN a) hc 2 _ _ 6 (by norm_num),
      horizSeg_other (colsN a) hc 1 _ _ 6 (by norm_num),
      horizSeg_other (colsN a) hc 0 _ _ 6 (by norm_num)]
    simp
  · rw [horizSeg_own (colsN a) hc 7 _ _ _,
      horizSeg_other (colsN a) hc 6 _ _ 7 (by norm_num),
      horizSeg_other (colsN a) hc 5 _ _ 7 (by norm_num),
      horizSeg_other (colsN a) hc 4 _ _ 7 (by norm_num),
      horizSeg_other (colsN a) hc 3 _ _ 7 (by norm_num),
      horizSeg_other (colsN a) hc 2 _ _ 7 (by norm_num),
      horizSeg_other (colsN a) hc 1 _ _ 7 (by norm_num),
      horizSeg_other (colsN a) hc 0 _ _ 7 (by norm_num)]
    simp

/-- Encoded vectors are well formed: every word fits in 64 bits. -/
theorem fromArray_Wf (a : Fin 512 → Nat) (ha : ∀ i, a i < 256) : (u8x512.fromArray a).Wf := by
  intro v r
  apply Nat.lt_pow_two_of_testBit
  intro j hj
  rw [fromArray_testBit a ha v r j]
  have h1 : (decide (j < 64) : Bool) = false := by
    simp
    omega
  rw [h1]
  simp

/-- Characterization of the verticalize inner loop: run with fuel
`row_cpy.count_ones()`, it ORs `v_mask` into `cols[h + offset]` for exactly
the set bits `h` of the word, leaving every other output entry alone. -/
theorem vertBits_spec (vm offset : Nat) : ∀ cnt w cols, cnt = onesAux 64 w → w < 2 ^ 64 →
    vertBits cnt w vm offset cols
      = fun j => if offset ≤ j ∧ Nat.testBit w (j - offset) then cols j ||| vm else cols j := by
  intro cnt
  induction cnt with
  | zero =>
    intro w cols hcnt hw
    have hw0 : w = 0 := (onesAux_eq_zero_iff 64 w hw).mp hcnt.symm
    subst hw0
    funext j
    simp [vertBits]
  | succ cnt ih =>
    intro w cols hcnt hw
    have hwne : w ≠ 0 := by
      intro h
      subst h
      have h0 : onesAux 64 0 = 0 := rfl
      omega
    rw [vertBits]
    have hones : onesAux 64 (w ^^^ (1 <<< tzAux 64 w)) + 1 = onesAux 64 w :=
      onesAux_clearLowBit 64 w hw hwne
    have hlt : w ^^^ (1 <<< tzAux 64 w) < 2 ^ 64 := clearLowBit_lt 64 w hw hwne
    rw [ih (w ^^^ (1 <<< tzAux 64 w)) (orCol cols (tzAux 64 w + offset) vm) (by omega) hlt]
    funext j
    by_cases hj : j = tzAux 64 w + offset
    · subst hj
      have hbit : Nat.testBit (w ^^^ (1 <<< tzAux 64 w)) (tzAux 64 w) = false := by
        rw [testBit_clearLowBit 64 w hw hwne]
        simp
      have hbit2 : Nat.testBit w (tzAux 64 w) = true := testBit_tzAux 64 w hw hwne
      have hsub : tzAux 64 w + offset - offset = tzAux 64 w := by omega
      simp [hsub, hbit, hbit2, orCol]
    · by_cases hoff : offset ≤ j
      · have hsub : j - offset ≠ tzAux 64 w := by omega
        have hbit : Nat.testBit (w ^^^ (1 <<< tzAux 64 w)) (j - offset) = Nat.testBit w (j - offset) := by
          rw [testBit_clearLowBit 64 w hw hwne, if_neg hsub]
        simp [hbit, orCol, hj, hoff]
      · simp [orCol, hj, hoff]

/-- Partial-plane invariant for `verticalize!`: after the first `m` words
of a plane, output entry `j` holds its original value ORed with `v_mask`
exactly when its word has been processed and its bit is set. -/
theorem vertRow_firstWords (row : u64x8) (hw : ∀ q, wordN row q < 2 ^ 64) (vm : Nat) (cols : Nat → Nat) :
    ∀ m, m ≤ 8 → ∀ j,
      (List.range m).foldl (vertStepF row vm) cols j
        = if j < 64 * m ∧ Nat.testBit (wordN row (j / 64)) (j % 64) then cols j ||| vm else cols j := by
  intro m
  induction m with
  | zero =>
    intro _ j
    simp
  | succ m ih =>
    intro hm8 j
    have hstep : (List.range (m + 1)).foldl (vertStepF row vm) cols
        = vertStepF row vm ((List.range m).foldl (vertStepF row vm) cols) m := by
      rw [List.range_succ, List.foldl_append]
      simp
    have hrw : vertStepF row vm ((List.range m).foldl (vertStepF row vm) cols) m
        = fun j => if 64 * m ≤ j ∧ Nat.testBit (wordN row m) (j - 64 * m)
            then (List.range m).foldl (vertStepF row vm) cols j ||| vm
            else (List.range m).foldl (vertStepF row vm) cols j := by
      rw [vertStepF, vertBits_spec vm (64 * m) _ _ _ rfl (hw m)]
    rw [hstep, hrw]
    simp only []
    rcases Nat.lt_or_ge j (64 * m) with hj1 | hj1
    · rw [if_neg (fun h => by omega)]
      rw [ih (by omega) j]
      have he : (j < 64 * m ∧ Nat.testBit (wordN row (j / 64)) (j % 64))
          ↔ (j < 64 * (m + 1) ∧ Nat.testBit (wordN row (j / 64)) (j % 64)) := by
        constructor
        · exact fun h => ⟨by omega, h.2⟩
        · exact fun h => ⟨hj1, h.2⟩
      by_cases hb : Nat.testBit (wordN row (j / 64)) (j % 64)
      · rw [if_pos ⟨hj1, hb⟩, if_pos ⟨by omega, hb⟩]
      · rw [if_neg (fun h => hb h.2), if_neg (fun h => hb h.2)]
    · rcases Nat.lt_or_ge j (64 * (m + 1)) with hj2 | hj2
      · have hdiv : j / 64 = m := by omega
        have hmod : j % 64 = j - 64 * m := by omega
        have hin : (List.range m).foldl (vertStepF row vm) cols j = cols j := by
          rw [ih (by omega) j, if_neg (fun h => absurd h.1 (by omega))]
        rw [hin]
        by_cases hb : Nat.testBit (wordN row m) (j - 64 * m)
        · rw [if_pos ⟨hj1, hb⟩, if_pos ⟨hj2, by rw [hdiv, hmod]; exact hb⟩]
        · rw [if_neg (fun h => hb h.2), if_neg (fun h => by rw [hdiv, hmod] at h; exact hb h.2)]
      · have hbit : Nat.testBit (wordN row m) (j - 64 * m) = false := by
          apply Nat.testBit_lt_two_pow
          calc wordN row m < 2 ^ 64 := hw m
          _ ≤ 2 ^ (j - 64 * m) := Nat.pow_le_pow_right (by norm_num) (by omega)
        rw [if_neg (fun h => by rw [hbit] at h; exact Bool.false_ne_true h.2)]
        rw [ih (by omega) j, if_neg (fun h => by omega), if_neg (fun h => by omega)]

/-- Full-plane effect of `verticalize!` on every output entry. -/
theorem vertRow_spec (row : u64x8) (hw : ∀ q, wordN row q < 2 ^ 64) (vm : Nat) (cols : Nat → Nat) (j : Nat) :
    vertRow row vm cols j
      = if j < 512 ∧ Nat.testBit (wordN row (j / 64)) (j % 64) then cols j ||| vm else cols j := by
  have h := vertRow_firstWords row hw vm cols 8 (le_refl 8) j
  rw [vertRow]
  norm_num at h
  exact h

/-- Words of a well-formed vector, read through `wordN`, are 64-bit. -/
theorem wordN_lt (x : u8x512) (hx : x.Wf) (v : Fin 8) : ∀ q, wordN (x.rows v) q < 2 ^ 64 := by
  intro q
  rw [wordN]
  split
  · exact hx v _
  · norm_num

/-- Decoder bit characterization: bit `b` of output element `i` is bit
`i % 64` of word `i / 64` of plane `b` (and clear for `b ≥ 8`). -/
theorem intoArray_testBit (x : u8x512) (hx : x.Wf) (i : Fin 512) (b : Nat) :
    Nat.testBit (u8x512.intoArray x i) b
      = (decide (b < 8) && colBits x (i.val / 64) (i.val % 64) b) := by
  have hj : i.val < 512 := i.isLt
  have hs : ∀ (row : u64x8), (∀ q, wordN row q < 2 ^ 64) → ∀ (vm : Nat) (c : Nat → Nat) (b' : Nat),
      Nat.testBit (vertRow row vm c i.val) b'
        = (Nat.testBit (c i.val) b'
            || (Nat.testBit (wordN row (i.val / 64)) (i.val % 64) && Nat.testBit vm b')) := by
    intro row hw vm c b'
    rw [vertRow_spec row hw vm c i.val]
    by_cases hb : Nat.testBit (wordN row (i.val / 64)) (i.val % 64)
    · rw [if_pos ⟨hj, hb⟩, Nat.testBit_or, hb]
      simp
    · have hb' : Nat.testBit (wordN row (i.val / 64)) (i.val % 64) = false := by
        simpa using hb
      rw [if_neg (fun h => by rw [hb'] at h; exact Bool.false_ne_true h.2), hb']
      simp
  have t1 : ∀ b', Nat.testBit 1 b' = decide (0 = b') := by
    intro b'
    rw [show (1 : Nat) = 2 ^ 0 by norm_num, Nat.testBit_two_pow]
  have t2 : ∀ b', Nat.testBit 2 b' = decide (1 = b') := by
    intro b'
    rw [show (2 : Nat) = 2 ^ 1 by norm_num, Nat.testBit_two_pow]
  have t4 : ∀ b', Nat.testBit 4 b' = decide (2 = b') := by
    intro b'
    rw [show (4 : Nat) = 2 ^ 2 by norm_num, Nat.testBit_two_pow]
  have t8 : ∀ b', Nat.testBit 8 b' = decide (3 = b') := by
    intro b'
    rw [show (8 : Nat) = 2 ^ 3 by norm_num, Nat.testBit_two_pow]
  have t16 : ∀ b', Nat.testBit 16 b' = decide (4 = b') := by
    intro b'
    rw [show (16 : Nat) = 2 ^ 4 by norm_num, Nat.testBit_two_pow]
  have t32 : ∀ b', Nat.testBit 32 b' = decide (5 = b') := by
    intro b'
    rw [show (32 : Nat) = 2 ^ 5 by norm_num, Nat.testBit_two_pow]
  have t64 : ∀ b', Nat.testBit 64 b' = decide (6 = b') := by
    intro b'
    rw [show (64 : Nat) = 2 ^ 6 by norm_num, Nat.testBit_two_pow]
  have t128 : ∀ b', Nat.testBit 128 b' = decide (7 = b') := by
    intro b'
    rw [show (128 : Nat) = 2 ^ 7 by norm_num, Nat.testBit_two_pow]
  rw [show u8x512.intoArray x i
      = vertRow (x.rows 7) 128 (vertRow (x.rows 6) 64 (vertRow (x.rows 5) 32
          (vertRow (x.rows 4) 16 (vertRow (x.rows 3) 8 (vertRow (x.rows 2) 4
            (vertRow (x.rows 1) 2 (vertRow (x.rows 0) 1 (fun _ => 0)))))))) i.val from rfl]
  rw [hs (x.rows 7) (wordN_lt x hx 7) 128 _ b, hs (x.rows 6) (wordN_lt x hx 6) 64 _ b,
    hs (x.rows 5) (wordN_lt x hx 5) 32 _ b, hs (x.rows 4) (wordN_lt x hx 4) 16 _ b,
    hs (x.rows 3) (wordN_lt x hx 3) 8 _ b, hs (x.rows 2) (wordN_lt x hx 2) 4 _ b,
    hs (x.rows 1) (wordN_lt x hx 1) 2 _ b, hs (x.rows 0) (wordN_lt x hx 0) 1 _ b]
  rw [t1 b, t2 b, t4 b, t8 b, t16 b, t32 b, t64 b, t128 b]
  by_cases hb8 : b < 8
  · have hd : (decide (b < 8) : Bool) = true := by simp [hb8]
    rw [hd]
    interval_cases b <;>
      simp [colBits, show rowN8 x 0 = x.rows 0 from rfl, show rowN8 x 1 = x.rows 1 from rfl,
        show rowN8 x 2 = x.rows 2 from rfl, show rowN8 x 3 = x.rows 3 from rfl,
        show rowN8 x 4 = x.rows 4 from rfl, show rowN8 x 5 = x.rows 5 from rfl,
        show rowN8 x 6 = x.rows 6 from rfl, show rowN8 x 7 = x.rows 7 from rfl]
  · have hd : (decide (b < 8) : Bool) = false := by simp [hb8]
    have hv : ∀ v : Nat, v < 8 → (decide (v = b) : Bool) = false := by
      intro v hvlt
      simp only [decide_eq_false_iff_not]
      omega
    rw [hd, hv 0 (by norm_num), hv 1 (by norm_num), hv 2 (by norm_num), hv 3 (by norm_num),
      hv 4 (by norm_num), hv 5 (by norm_num), hv 6 (by norm_num), hv 7 (by norm_num)]
    simp

/-- Eta rule for Nat-indexed word reads at valid indices. -/
theorem wordN_eta (w : u64x8) (r : Fin 8) : wordN w r.val = w r := by
  rw [wordN, dif_pos r.isLt]

/-- Column bits read through `rowN8` agree with direct plane reads. -/
theorem colBits_eq_rows (x : u8x512) (r j : Nat) (v : Fin 8) :
    colBits x r j v.val = Nat.testBit (wordN (x.rows v) r) j := by
  simp only [colBits]
  have h1 : rowN8 x v.val = x.rows v := by
    rw [rowN8, dif_pos v.isLt]
  rw [h1]

/-- Decoded element value: the byte assembled from the eight plane bits of
its column. -/
theorem intoArray_colVal (x : u8x512) (hx : x.Wf) (i : Fin 512) :
    u8x512.intoArray x i = colVal x (i.val / 64) (i.val % 64) := by
  apply Nat.eq_of_testBit_eq
  intro b
  rw [intoArray_testBit x hx i b, colVal, testBit_bitsVal]

/-- Encoder column bits: plane bit `v` of element column `j` of word `r`
is bit `v` of input element `64*r + j`. -/
theorem colBits_fromArray (a : Fin 512 → Nat) (ha : ∀ i, a i < 256) (r j v : Nat)
    (hr : r < 8) (hj : j < 64) (hv : v < 8) :
    colBits (u8x512.fromArray a) r j v = Nat.testBit (colsN a (64 * r + j)) v := by
  simp only [colBits]
  have h1 : rowN8 (u8x512.fromArray a) v = (u8x512.fromArray a).rows ⟨v, hv⟩ := by
    rw [rowN8, dif_pos hv]
  have h2 : wordN ((u8x512.fromArray a).rows ⟨v, hv⟩) r = (u8x512.fromArray a).rows ⟨v, hv⟩ ⟨r, hr⟩ := by
    rw [wordN, dif_pos hr]
  rw [h1, h2, fromArray_testBit a ha ⟨v, hv⟩ ⟨r, hr⟩ j]
  have hd : (decide (j < 64) : Bool) = true := by simp [hj]
  rw [hd]
  simp

/-- Encoder column values: column `i` of the encoding holds exactly the
input byte `a i`. -/
theorem colVal_fromArray (a : Fin 512 → Nat) (ha : ∀ i, a i < 256) (i : Fin 512) :
    colVal (u8x512.fromArray a) (i.val / 64) (i.val % 64) = a i := by
  have hlt := i.isLt
  rw [colVal, bitsVal]
  have he : ∀ v ∈ Finset.range 8,
      cond (colBits (u8x512.fromArray a) (i.val / 64) (i.val % 64) v) (2 ^ v) 0
        = cond (Nat.testBit (a i) v) (2 ^ v) 0 := by
    intro v hv
    rw [colBits_fromArray a ha _ _ v (by omega) (by omega) (Finset.mem_range.mp hv)]
    have hi : 64 * (i.val / 64) + i.val % 64 = i.val := by omega
    rw [hi]
    have hcn : colsN a i.val = a i := by
      simp [colsN, hlt]
    rw [hcn]
  rw [Finset.sum_congr rfl he]
  exact bitsVal_testBit_self (a i) 8 (by have := ha i; omega)

/-- Round trip at each element: decoding the encoding gives the input. -/
theorem intoArray_fromArray (a : Fin 512 → Nat) (ha : ∀ i, a i < 256) (i : Fin 512) :
    u8x512.intoArray (u8x512.fromArray a) i = a i := by
  rw [intoArray_colVal _ (fromArray_Wf a ha) i, colVal_fromArray a ha i]

/-- Lane reads distribute over the and intrinsic. -/
theorem wordN_simd_and (a b : u64x8) (r : Nat) : wordN (simd_and a b) r = wordN a r &&& wordN b r := by
  by_cases h : r < 8 <;> simp [wordN, h, simd_and]

/-- Lane reads distribute over the or intrinsic. -/
theorem wordN_simd_or (a b : u64x8) (r : Nat) : wordN (simd_or a b) r = wordN a r ||| wordN b r := by
  by_cases h : r < 8 <;> simp [wordN, h, simd_or]

/-- Lane reads distribute over the xor intrinsic. -/
theorem wordN_simd_xor (a b : u64x8) (r : Nat) : wordN (simd_xor a b) r = wordN a r ^^^ wordN b r := by
  by_cases h : r < 8 <;> simp [wordN, h, simd_xor]

/-- Adder carries, bit by bit: each column runs the Bool carry chain. -/
theorem carries_testBit (x y : u8x512) : ∀ (k r j : Nat),
    Nat.testBit (wordN (carries x y k) r) j = faCarry (colBits x r j) (colBits y r j) k := by
  intro k
  induction k with
  | zero =>
    intro r j
    simp [carries, wordN_simd_and, Nat.testBit_and, faCarry, colBits]
  | succ k ih =>
    intro r j
    simp [carries, carryStep, wordN_simd_and, wordN_simd_or, Nat.testBit_and, Nat.testBit_or,
      faCarry, colBits, ih]

/-- Adder result planes, bit by bit: each column runs the Bool sum chain. -/
theorem add_testBit (x y : u8x512) (v : Nat) (hv : v < 8) (r j : Nat) :
    Nat.testBit (wordN (rowN8 (u8x512.add x y) v) r) j
      = faSum (colBits x r j) (colBits y r j) v := by
  cases v with
  | zero =>
    have h0 : rowN8 (u8x512.add x y) 0 = (u8x512.add x y).rows 0 := rfl
    have h1 : (u8x512.add x y).rows 0 = simd_xor (x.rows 0) (y.rows 0) := by
      simp [u8x512.add]
    rw [h0, h1, wordN_simd_xor, Nat.testBit_xor]
    have h2 : colBits x r j 0 = Nat.testBit (wordN (x.rows 0) r) j := colBits_eq_rows x r j 0
    have h3 : colBits y r j 0 = Nat.testBit (wordN (y.rows 0) r) j := colBits_eq_rows y r j 0
    simp [faSum, h2, h3]
  | succ k =>
    have h0 : rowN8 (u8x512.add x y) (k + 1) = (u8x512.add x y).rows ⟨k + 1, hv⟩ := by
      simp only [rowN8]
      rw [dif_pos hv]
    have hne : (⟨k + 1, hv⟩ : Fin 8) ≠ 0 := by
      simp [Fin.ext_iff]
    have h1 : (u8x512.add x y).rows ⟨k + 1, hv⟩
        = simd_xor (simd_xor (x.rows ⟨k + 1, hv⟩) (y.rows ⟨k + 1, hv⟩)) (carries x y k) := by
      simp [u8x512.add, hne]
    rw [h0, h1, wordN_simd_xor, wordN_simd_xor, Nat.testBit_xor, Nat.testBit_xor,
      carries_testBit x y k r j]
    have h2 : colBits x r j (k + 1) = Nat.testBit (wordN (x.rows ⟨k + 1, hv⟩) r) j :=
      colBits_eq_rows x r j ⟨k + 1, hv⟩
    have h3 : colBits y r j (k + 1) = Nat.testBit (wordN (y.rows ⟨k + 1, hv⟩) r) j :=
      colBits_eq_rows y r j ⟨k + 1, hv⟩
    simp [faSum, h2, h3]

/-- Column values of the adder output: per-element mod-256 addition. -/
theorem colVal_add (x y : u8x512) (r j : Nat) :
    colVal (u8x512.add x y) r j = (colVal x r j + colVal y r j) % 256 := by
  rw [colVal, colVal, colVal, ← faSum_correct]
  rw [bitsVal, bitsVal]
  apply Finset.sum_congr rfl
  intro v hv
  have hv8 : v < 8 := Finset.mem_range.mp hv
  have h1 : colBits (u8x512.add x y) r j v = faSum (colBits x r j) (colBits y r j) v := by
    simp only [colBits]
    exact add_testBit x y v hv8 r j
  rw [h1]

/-- A vector is determined by its column values. -/
theorem eq_of_colVal_eq (x y : u8x512) (h : ∀ r j, colVal x r j = colVal y r j) : x = y := by
  apply u8x512.ext_rows
  funext v r
  apply Nat.eq_of_testBit_eq
  intro j
  have h1 := congrArg (fun t => Nat.testBit t v.val) (h r.val j)
  simp only at h1
  rw [colVal, colVal, testBit_bitsVal, testBit_bitsVal] at h1
  have hd : (decide (v.val < 8) : Bool) = true := by simp [v.isLt]
  rw [hd] at h1
  simp only [Bool.true_and] at h1
  rw [colBits_eq_rows x r.val j v, colBits_eq_rows y r.val j v] at h1
  rw [wordN_eta (x.rows v) r, wordN_eta (y.rows v) r] at h1
  exact h1

/-- Row reads of a well-formed vector are 64-bit. -/
theorem rowN8_lt (x : u8x512) (hx : x.Wf) (n : Nat) (r : Fin 8) : rowN8 x n r < 2 ^ 64 := by
  rw [rowN8]
  split
  · exact hx _ r
  · norm_num [u64x8.ZERO]

/-- Adder carries of well-formed vectors are 64-bit. -/
theorem carries_lt (x y : u8x512) (hy : y.Wf) : ∀ k (r : Fin 8), carries x y k r < 2 ^ 64 := by
  intro k
  induction k with
  | zero =>
    intro r
    show rowN8 x 0 r &&& rowN8 y 0 r < 2 ^ 64
    exact Nat.and_lt_two_pow _ (rowN8_lt y hy 0 r)
  | succ k ih =>
    intro r
    show (rowN8 x (k + 1) r &&& rowN8 y (k + 1) r ||| rowN8 x (k + 1) r &&& carries x y k r)
        ||| rowN8 y (k + 1) r &&& carries x y k r < 2 ^ 64
    apply Nat.or_lt_two_pow
    · apply Nat.or_lt_two_pow
      · exact Nat.and_lt_two_pow _ (rowN8_lt y hy _ r)
      · exact Nat.and_lt_two_pow _ (ih r)
    · exact Nat.and_lt_two_pow _ (ih r)

/-- The adder preserves well-formedness. -/
theorem add_Wf (x y : u8x512) (hx : x.Wf) (hy : y.Wf) : (u8x512.add x y).Wf := by
  intro v r
  by_cases h : v = 0
  · subst h
    show (simd_xor (x.rows 0) (y.rows 0)) r < 2 ^ 64
    exact Nat.xor_lt_two_pow (hx 0 r) (hy 0 r)
  · have h1 : (u8x512.add x y).rows v
        = simd_xor (simd_xor (x.rows v) (y.rows v)) (carries x y (v.val - 1)) := by
      simp [u8x512.add, h]
    rw [h1]
    show (x.rows v r ^^^ y.rows v r) ^^^ carries x y (v.val - 1) r < 2 ^ 64
    exact Nat.xor_lt_two_pow (Nat.xor_lt_two_pow (hx v r) (hy v r)) (carries_lt x y hy _ r)

/-- Spec accessor versus the Nat-indexed column matrix. -/
theorem planeBit_eq_colBits (x : u8x512) (i : Fin 512) (b : Fin 8) :
    x.planeBit i b = colBits x (i.val / 64) (i.val % 64) b.val := by
  rw [u8x512.planeBit, colBits_eq_rows x _ _ b]
  have hdiv : i.val / 64 < 8 := by have := i.isLt; omega
  rw [wordN, dif_pos hdiv]

/-- C1: for every pair of 512-byte arrays `a` and `b` and every index `i`,
decoding the sum of their encodings yields the scalar wraparound sum
`(a[i] + b[i]) mod 256`, the overflow bit being discarded. -/
theorem claim_C1 (a b : Fin 512 → Nat) (ha : ∀ i, a i < 256) (hb : ∀ i, b i < 256) (i : Fin 512) :
    u8x512.intoArray (u8x512.add (u8x512.fromArray a) (u8x512.fromArray b)) i
      = (a i + b i) % 256 := by
  rw [intoArray_colVal _ (add_Wf _ _ (fromArray_Wf a ha) (fromArray_Wf b hb)) i,
    colVal_add, colVal_fromArray a ha i, colVal_fromArray b hb i]

/-- Witness for C1 at the constant arrays 200 and 100. -/
theorem claim_C1_witness :
    (∀ i : Fin 512, (fun _ : Fin 512 => (200 : Nat)) i < 256)
      ∧ (∀ i : Fin 512, (fun _ : Fin 512 => (100 : Nat)) i < 256)
      ∧ u8x512.intoArray
          (u8x512.add (u8x512.fromArray (fun _ => 200)) (u8x512.fromArray (fun _ => 100)))
          ⟨0, by norm_num⟩
        = ((fun _ : Fin 512 => (200 : Nat)) ⟨0, by norm_num⟩
            + (fun _ : Fin 512 => (100 : Nat)) ⟨0, by norm_num⟩) % 256 :=
  ⟨fun _ => by norm_num, fun _ => by norm_num,
    claim_C1 (fun _ => 200) (fun _ => 100) (fun _ => by norm_num) (fun _ => by norm_num)
      ⟨0, by norm_num⟩⟩

/-- C2: decoding the encoding of any 512-byte array returns it unchanged,
element for element. -/
theorem claim_C2 (a : Fin 512 → Nat) (ha : ∀ i, a i < 256) (i : Fin 512) :
    u8x512.intoArray (u8x512.fromArray a) i = a i :=
  intoArray_fromArray a ha i

/-- Witness for C2 at the constant array 7. -/
theorem claim_C2_witness :
    (∀ i : Fin 512, (fun _ : Fin 512 => (7 : Nat)) i < 256)
      ∧ u8x512.intoArray (u8x512.fromArray (fun _ => 7)) ⟨3, by norm_num⟩
          = (fun _ : Fin 512 => (7 : Nat)) ⟨3, by norm_num⟩ :=
  ⟨fun _ => by norm_num,
    claim_C2 (fun _ => 7) (fun _ => by norm_num) ⟨3, by norm_num⟩⟩

/-- C3: the encoder is total on all byte values and satisfies
`M[i][b] = (input[i] >> b) & 1` for every element `i` and bit `b`. -/
theorem claim_C3 (a : Fin 512 → Nat) (ha : ∀ i, a i < 256) (i : Fin 512) (b : Fin 8) :
    cond ((u8x512.fromArray a).planeBit i b) 1 0 = (a i >>> b.val) &&& 1 := by
  rw [planeBit_eq_colBits]
  have hdiv : i.val / 64 < 8 := by have := i.isLt; omega
  have hmod : i.val % 64 < 64 := by omega
  rw [colBits_fromArray a ha _ _ b.val hdiv hmod b.isLt]
  have hi : 64 * (i.val / 64) + i.val % 64 = i.val := by omega
  rw [hi]
  have hcn : colsN a i.val = a i := by
    simp [colsN, i.isLt]
  rw [hcn, Nat.and_one_is_mod, Nat.shiftRight_eq_div_pow, Nat.testBit_to_div_mod]
  rcases Nat.mod_two_eq_zero_or_one (a i / 2 ^ b.val) with h | h <;> simp [h]

/-- Witness for C3 at the constant array 5, element 0, bit 0. -/
theorem claim_C3_witness :
    (∀ i : Fin 512, (fun _ : Fin 512 => (5 : Nat)) i < 256)
      ∧ cond ((u8x512.fromArray (fun _ => 5)).planeBit ⟨0, by norm_num⟩ ⟨0, by norm_num⟩) 1 0
          = (((fun _ : Fin 512 => (5 : Nat)) ⟨0, by norm_num⟩) >>> (0 : Fin 8).val) &&& 1 :=
  ⟨fun _ => by norm_num,
    claim_C3 (fun _ => 5) (fun _ => by norm_num) ⟨0, by norm_num⟩ ⟨0, by norm_num⟩⟩

/-- C4: the decoder is total and returns, for every element `i`, the
weighted sum of that element's plane bits. -/
theorem claim_C4 (x : u8x512) (hx : x.Wf) (i : Fin 512) :
    u8x512.intoArray x i = ∑ b : Fin 8, cond (x.planeBit i b) (2 ^ b.val) 0 := by
  rw [intoArray_colVal x hx i]
  have he : (∑ b : Fin 8, cond (x.planeBit i b) (2 ^ b.val) 0)
      = ∑ b : Fin 8, cond (colBits x (i.val / 64) (i.val % 64) b.val) (2 ^ b.val) 0 :=
    Finset.sum_congr rfl (fun b _ => by rw [planeBit_eq_colBits])
  rw [he, colVal, bitsVal,
    ← Fin.sum_univ_eq_sum_range (fun v => cond (colBits x (i.val / 64) (i.val % 64) v) (2 ^ v) 0) 8]

/-- Witness for C4 at the all-zero vector, element 0. -/
theorem claim_C4_witness :
    (⟨fun _ => fun _ => 0⟩ : u8x512).Wf
      ∧ u8x512.intoArray (⟨fun _ => fun _ => 0⟩ : u8x512) ⟨0, by norm_num⟩
          = ∑ b : Fin 8,
              cond ((⟨fun _ => fun _ => 0⟩ : u8x512).planeBit ⟨0, by norm_num⟩ b) (2 ^ b.val) 0 :=
  ⟨fun _ _ => by norm_num,
    claim_C4 (⟨fun _ => fun _ => 0⟩ : u8x512) (fun _ _ => by norm_num) ⟨0, by norm_num⟩⟩

/-- C5: the in-place form leaves the receiver holding exactly the value
the value-producing form returns. -/
theorem claim_C5 (a b : u8x512) : u8x512.add_assign a b = u8x512.add a b := by
  apply u8x512.ext_rows
  funext v
  fin_cases v <;> rfl

/-- C6: addition of bit-plane vectors is commutative, bit for bit, for all
vectors, encoder-produced or not. -/
theorem claim_C6 (x y : u8x512) : u8x512.add x y = u8x512.add y x := by
  apply eq_of_colVal_eq
  intro r j
  rw [colVal_add, colVal_add, Nat.add_comm]

/-- C7: the encoding is a bijection in both directions: encoding the
decoded byte array of any well-formed bit-plane vector reproduces it. -/
theorem claim_C7 (x : u8x512) (hx : x.Wf) :
    u8x512.fromArray (u8x512.intoArray x) = x := by
  have ha : ∀ i, u8x512.intoArray x i < 256 := by
    intro i
    rw [intoArray_colVal x hx i, colVal]
    have := bitsVal_lt (colBits x (i.val / 64) (i.val % 64)) 8
    omega
  apply u8x512.ext_rows
  funext v r
  apply Nat.eq_of_testBit_eq
  intro j
  rw [fromArray_testBit _ ha v r j]
  rcases Nat.lt_or_ge j 64 with hj | hj
  · have hd : (decide (j < 64) : Bool) = true := by simp [hj]
    rw [hd, Bool.true_and]
    have hidx : 64 * r.val + j < 512 := by have := r.isLt; omega
    have hcn : colsN (u8x512.intoArray x) (64 * r.val + j) = u8x512.intoArray x ⟨64 * r.val + j, hidx⟩ := by
      simp [colsN, hidx]
    rw [hcn, intoArray_colVal x hx ⟨64 * r.val + j, hidx⟩]
    have hdiv : (64 * r.val + j) / 64 = r.val := by omega
    have hmod : (64 * r.val + j) % 64 = j := by omega
    rw [hdiv, hmod, colVal, testBit_bitsVal]
    have hv : (decide (v.val < 8) : Bool) = true := by simp [v.isLt]
    rw [hv, Bool.true_and, colBits_eq_rows x r.val j v, wordN_eta]
  · have hd : (decide (j < 64) : Bool) = false := by simp; omega
    rw [hd, Bool.false_and]
    have hb : x.rows v r < 2 ^ j :=
      lt_of_lt_of_le (hx v r) (Nat.pow_le_pow_right (by norm_num) hj)
    rw [Nat.testBit_lt_two_pow hb]

/-- Witness for C7 at the all-zero vector. -/
theorem claim_C7_witness :
    (⟨fun _ => fun _ => 0⟩ : u8x512).Wf
      ∧ u8x512.fromArray (u8x512.intoArray (⟨fun _ => fun _ => 0⟩ : u8x512))
          = (⟨fun _ => fun _ => 0⟩ : u8x512) :=
  ⟨fun _ _ => by norm_num,
    claim_C7 (⟨fun _ => fun _ => 0⟩ : u8x512) (fun _ _ => by norm_num)⟩

/-- C8: the by-reference `add` leaves its store untouched beside the fresh
result, and the in-place `add_assign` never writes its `rhs` cell. -/
theorem claim_C8 (s : Fin 2 → u8x512) :
    (u8x512.addCall s).1 = s ∧ u8x512.addAssignStore s 1 = s 1 :=
  ⟨rfl, rfl⟩

/-- C9: every one of the 8 `MaybeUninit` result planes of `add` is written
before the final transmute, which therefore always succeeds and yields the
adder value. -/
theorem claim_C9 (x y : u8x512) : u8x512.addUninit x y = some (u8x512.add x y) := by
  simp only [u8x512.addUninit]
  split
  · congr 1
    apply u8x512.ext_rows
    funext v
    fin_cases v <;> rfl
  · rename_i h
    exact absurd (by intro i; fin_cases i <;> rfl) h

/-- C10: addition of bit-plane vectors is associative, bit for bit. -/
theorem claim_C10 (x y z : u8x512) :
    u8x512.add (u8x512.add x y) z = u8x512.add x (u8x512.add y z) := by
  apply eq_of_colVal_eq
  intro r j
  rw [colVal_add, colVal_add, colVal_add, colVal_add]
  omega
